import Mathlib

/- Formal model of the DepthC3D training code: the CVO (cross-view-overlap)
   loss engine, reprojection/automasking losses, configuration assertions
   from trainer.py, and the per-scale intrinsics and depth-mask construction
   from datasets/kitti_dataset.py.

   Conventions of the shallow embedding:
   * torch tensors indexed over pixels become functions of integer
     coordinates; batched operations are modelled per batch element;
   * float arithmetic is modelled over the reals, except that a float
     division whose denominator is zero (which produces a non-finite IEEE
     value) is modelled as an `Option` that is `none` exactly there;
   * randomness (torch.randperm, tie-break noise) is passed in explicitly
     as a parameter;
   * external library primitives (numpy.linalg.pinv, the SSIM module,
     skimage binary_closing) are modelled as parameters or as their
     mathematical definitions. -/

/-- Checked real division modelling torch float division: when the
denominator is zero the IEEE result is non-finite (inf or NaN), modelled
here as `none`. Otherwise the real quotient. -/
noncomputable def fdiv (a b : ℝ) : Option ℝ :=
  if b = 0 then none else some (a / b)

/-- Embeds `Trainer.loss_from_inner_prod` (trainer.py lines 862-866).
From the three inner products keyed (0,0), (1,1), (0,1) it derives the
squared function-space distance
`f1_f2_dist = inp(0,0) + inp(1,1) - 2*inp(0,1)` and the cosine
dissimilarity `cos_similarity = 1 - inp(0,1)/sqrt(inp(0,0)*inp(1,1))`
(the division via `fdiv`; the source has no guard on the denominator). -/
noncomputable def loss_from_inner_prod (inner_prods : ℕ × ℕ → ℝ) : ℝ × Option ℝ :=
  (inner_prods (0, 0) + inner_prods (1, 1) - 2 * inner_prods (0, 1),
   (fdiv (inner_prods (0, 1))
      (Real.sqrt (inner_prods (0, 0) * inner_prods (1, 1)))).map (fun q => 1 - q))

/-- Embeds `Trainer.gen_cvo_loss_dense` (trainer.py lines 720-733).
`innerps` maps a key (id_pair, scale, gt_pair) to the inner product
computed by `calc_inp_from_dense`; the result is the triple
(inp, f_dist, cos_sim). For an identity pair (i = j) the source returns
zero tensors for f_dist and cos_sim directly; otherwise it looks up the
two self inner products and applies the same formulas as
`loss_from_inner_prod`. -/
noncomputable def gen_cvo_loss_dense
    (innerps : (ℤ × ℤ) × ℕ × (Bool × Bool) → ℝ)
    (id_pair : ℤ × ℤ) (scale : ℕ) (gt_pair : Bool × Bool) : ℝ × ℝ × Option ℝ :=
  let inp := innerps (id_pair, scale, gt_pair)
  if id_pair.1 = id_pair.2 then
    (inp, 0, some 0)
  else
    let inp_ii := innerps ((id_pair.1, id_pair.1), scale, (gt_pair.1, gt_pair.1))
    let inp_jj := innerps ((id_pair.2, id_pair.2), scale, (gt_pair.2, gt_pair.2))
    (inp, inp_ii + inp_jj - 2 * inp,
     (fdiv inp (Real.sqrt (inp_ii * inp_jj))).map (fun q => 1 - q))

/- ----------------------------------------------------------------
   Dense/windowed CVO inner product: `Trainer.calc_inp_from_dense`
   (trainer.py lines 619-699).
   ---------------------------------------------------------------- -/

/-- Python `range(lo, hi)` over the integers, as a list. -/
def rangeZ (lo hi : ℤ) : List ℤ :=
  (List.range (hi - lo).toNat).map (fun (k : ℕ) => lo + (k : ℤ))

/-- The flat offset-slot index computed in the source loop body:
`idx = (i + half_h) * (2 * half_w + 1) + j + half_w` (trainer.py 655). -/
def keyZ (half_h half_w : ℕ) (i j : ℤ) : ℕ :=
  ((i + half_h) * (2 * half_w + 1) + j + half_w).toNat

/-- The (i, j) offset pairs visited by the source's nested loops
`for i in range(-half_h, half_h): for j in range(-half_w, half_w)`
(trainer.py 639 and 644). Note the upper bounds are exclusive, so with
half_h = half_w = 4 this is the 8 x 8 grid [-4, 3] x [-4, 3]. -/
def off_pairs (half_h half_w : ℕ) : List (ℤ × ℤ) :=
  (rangeZ (-(half_h : ℤ)) half_h).flatMap
    (fun i => (rangeZ (-(half_w : ℤ)) half_w).map (fun j => (i, j)))

/-- One slice assignment of the source loop body (trainer.py 645-657):
writes the copy of `src` shifted by offset (i, j) into slot `idx` of the
offset buffer, on the destination region
[off_h0_start, height+off_h0_end) x [off_w0_start, width+off_w0_end);
everything else keeps the previous buffer content. -/
def write_off {α : Type} (half_h half_w H W : ℕ) (src : ℤ → ℤ → α) (i j : ℤ)
    (buf : ℕ → ℤ → ℤ → α) : ℕ → ℤ → ℤ → α :=
  let off_h0_start : ℤ := max 0 (-i)
  let off_h0_end : ℤ := min 0 (-i)
  let off_w0_start : ℤ := max 0 (-j)
  let off_w0_end : ℤ := min 0 (-j)
  let off_h1_start : ℤ := -off_h0_end
  let off_w1_start : ℤ := -off_w0_end
  let idx := keyZ half_h half_w i j
  fun idx2 h w =>
    if idx2 = idx ∧ off_h0_start ≤ h ∧ h < H + off_h0_end ∧
        off_w0_start ≤ w ∧ w < W + off_w0_end then
      src (off_h1_start + (h - off_h0_start)) (off_w1_start + (w - off_w0_start))
    else buf idx2 h w

/-- The zero-initialised offset buffer after the source's fill loops:
fold of `write_off` over all visited offsets, starting from the constant
`zero` buffer (models `torch.zeros(...)` followed by the slice writes). -/
def fill_off {α : Type} (half_h half_w H W : ℕ) (src : ℤ → ℤ → α) (zero : α) :
    ℕ → ℤ → ℤ → α :=
  (off_pairs half_h half_w).foldl
    (fun buf p => write_off half_h half_w H W src p.1 p.2 buf)
    (fun _ _ _ => zero)

/-- Number of offset slots allocated by the source:
`num_off = (2*half_w+1) * (2*half_h+1)` with half_w = half_h = 4
(trainer.py 624-631), i.e. 81 slots, of which only 64 are ever written. -/
def num_off : ℕ := (2 * 4 + 1) * (2 * 4 + 1)

/-- Squared Euclidean norm of the difference of two 3-vectors
(`torch.pow(torch.norm(a - b, dim=1), 2)` on the 3-channel axis). -/
def sqnorm3 (a b : ℝ × ℝ × ℝ) : ℝ :=
  (a.1 - b.1) ^ 2 + (a.2.1 - b.2.1) ^ 2 + (a.2.2 - b.2.2) ^ 2

/-- The per-slot kernel factor of trainer.py 684-688: the xyz Gaussian
kernel value, multiplied by the hsv Gaussian kernel value when an hsv
pair is supplied. `hsv_off` is the (already filled) hsv offset buffer. -/
noncomputable def dense_diff (geo_scale : ℝ) (H W : ℕ)
    (xyz0 : ℤ → ℤ → ℝ × ℝ × ℝ) (xyz1 : ℤ → ℤ → ℝ × ℝ × ℝ)
    (hsv_pair : Option ((ℤ → ℤ → ℝ × ℝ × ℝ) × (ℤ → ℤ → ℝ × ℝ × ℝ)))
    (idx : ℕ) (h w : ℤ) : ℝ :=
  let xyz_ell := geo_scale
  let hsv_ell : ℝ := 0.4
  let xyz_pair_off := fill_off 4 4 H W xyz1 (0, 0, 0)
  let diff_xyz :=
    Real.exp (-(sqnorm3 (xyz0 h w) (xyz_pair_off idx h w)) / (2 * xyz_ell * xyz_ell))
  match hsv_pair with
  | none => diff_xyz
  | some hsvp =>
      let hsv_pair_off := fill_off 4 4 H W hsvp.2 (0, 0, 0)
      diff_xyz *
        Real.exp (-(sqnorm3 (hsvp.1 h w) (hsv_pair_off idx h w)) / (2 * hsv_ell * hsv_ell))

/-- Embeds `Trainer.calc_inp_from_dense` (trainer.py 619-699) for one batch
element. Point grids are functions of (row, column); `mask0`/`mask1` are the
validity masks of the two point sets. The source builds 81 offset slots,
fills 64 of them with shifted copies of the second point set (zero-padded,
with the shifted validity mask), takes the masked kernel values, sums over
the slots, masks by the first point set's own mask, and sums over all
pixels. -/
noncomputable def calc_inp_from_dense (geo_scale : ℝ) (H W : ℕ)
    (xyz0 xyz1 : ℤ → ℤ → ℝ × ℝ × ℝ) (mask0 mask1 : ℤ → ℤ → Bool)
    (hsv_pair : Option ((ℤ → ℤ → ℝ × ℝ × ℝ) × (ℤ → ℤ → ℝ × ℝ × ℝ))) : ℝ :=
  let mask_pair_off := fill_off 4 4 H W mask1 false
  let masked : ℕ → ℤ → ℤ → ℝ := fun idx h w =>
    if mask_pair_off idx h w then dense_diff geo_scale H W xyz0 xyz1 hsv_pair idx h w else 0
  let exp_mask_halfsum : ℤ → ℤ → ℝ := fun h w =>
    Finset.sum (Finset.range num_off) (fun idx => masked idx h w)
  Finset.sum (Finset.range H) (fun h =>
    Finset.sum (Finset.range W) (fun w =>
      if mask0 (h : ℤ) (w : ℤ) then exp_mask_halfsum (h : ℤ) (w : ℤ) else 0))

/-- The joint spatial+colour kernel value between pixel (h, w) of the first
point set and pixel (h2, w2) of the second, as the dense path computes it:
the xyz Gaussian with length scale `geo_scale`, times the hsv Gaussian with
length scale 0.4 when colour is used. -/
noncomputable def pair_kernel (geo_scale : ℝ)
    (xyz0 xyz1 : ℤ → ℤ → ℝ × ℝ × ℝ)
    (hsv_pair : Option ((ℤ → ℤ → ℝ × ℝ × ℝ) × (ℤ → ℤ → ℝ × ℝ × ℝ)))
    (h w h2 w2 : ℤ) : ℝ :=
  Real.exp (-(sqnorm3 (xyz0 h w) (xyz1 h2 w2)) / (2 * geo_scale * geo_scale)) *
    match hsv_pair with
    | none => 1
    | some hsvp =>
        Real.exp (-(sqnorm3 (hsvp.1 h w) (hsvp.2 h2 w2)) / (2 * (0.4 : ℝ) * 0.4))

/-- The windowed inner product described by the specification: for every
pixel of the first point set whose own mask is set, sum the joint kernel
values against the pixels of the second point set displaced by the offsets
in `win`, skipping offsets that leave the image bounds or land on a pixel
where the second mask is unset. -/
noncomputable def windowed_inner_prod (win : Finset (ℤ × ℤ)) (geo_scale : ℝ) (H W : ℕ)
    (xyz0 xyz1 : ℤ → ℤ → ℝ × ℝ × ℝ) (mask0 mask1 : ℤ → ℤ → Bool)
    (hsv_pair : Option ((ℤ → ℤ → ℝ × ℝ × ℝ) × (ℤ → ℤ → ℝ × ℝ × ℝ))) : ℝ :=
  Finset.sum (Finset.range H) (fun h =>
    Finset.sum (Finset.range W) (fun w =>
      if mask0 (h : ℤ) (w : ℤ) then
        Finset.sum win (fun p =>
          if 0 ≤ (h : ℤ) + p.1 ∧ (h : ℤ) + p.1 < H ∧ 0 ≤ (w : ℤ) + p.2 ∧
              (w : ℤ) + p.2 < W ∧ mask1 ((h : ℤ) + p.1) ((w : ℤ) + p.2) = true then
            pair_kernel geo_scale xyz0 xyz1 hsv_pair (h : ℤ) (w : ℤ)
              ((h : ℤ) + p.1) ((w : ℤ) + p.2)
          else 0)
      else 0))

/- ----------------------------------------------------------------
   Sparse-mode point sampling (trainer.py 1176-1199 and 1366-1373).
   ---------------------------------------------------------------- -/

/-- The sampling step shared by `compute_losses` and `calc_cvo_pose_loss`:
when the point count exceeds the cap `samp_pt`, keep the points at the
first `samp_pt` indices of the random permutation `perm`
(`torch.randperm(num)[:samp_pt]`), applying the same index list to the
xyz and the colour columns; otherwise keep everything. -/
def samp_points {α β : Type} (samp_pt : ℕ) (perm : List ℕ)
    (xyz : List α) (rgb : List β) : List α × List β :=
  if samp_pt < xyz.length then
    ((perm.take samp_pt).filterMap (fun k => xyz[k]?),
     (perm.take samp_pt).filterMap (fun k => rgb[k]?))
  else (xyz, rgb)

/-- The sparse-CVO sampling inside `Trainer.compute_losses`
(trainer.py 1176-1199), with its cap `samp_pt = 3500`. -/
def compute_losses_samp {α β : Type} (perm : List ℕ) (xyz : List α) (rgb : List β) :
    List α × List β :=
  samp_points 3500 perm xyz rgb

/-- The sampling inside `Trainer.calc_cvo_pose_loss`
(trainer.py 1366-1373), with its cap `samp_num = 5000`. -/
def calc_cvo_pose_loss_samp {α β : Type} (perm : List ℕ) (xyz : List α) (rgb : List β) :
    List α × List β :=
  samp_points 5000 perm xyz rgb

/- ----------------------------------------------------------------
   Automasking min-selection (trainer.py 1247-1299) and the photometric
   reprojection loss (trainer.py 1013-1025).
   ---------------------------------------------------------------- -/

/-- The per-pixel min-over-candidates step of `Trainer.compute_losses` with
automasking enabled and per-frame losses kept separate: the candidate list
is the concatenation of the identity reprojection losses (tie-break noise
already added) and the warped reprojection losses
(`combined = torch.cat((identity_reprojection_loss, reprojection_loss), dim=1)`),
and the selected value is its minimum (`torch.min(combined, dim=1)`); a
single-candidate list is returned as is. -/
def compute_to_optimise (identity_reprojection_loss reprojection_loss : List ℝ) : ℝ :=
  match identity_reprojection_loss ++ reprojection_loss with
  | [] => 0
  | x :: xs => xs.foldl min x

/-- Embeds `Trainer.compute_reprojection_loss` (trainer.py 1013-1025) at one
pixel. `pred` and `target` list the colour channels at that pixel; the SSIM
module is external, so its per-channel output at the pixel is passed in as
`ssim_channels`. `abs_diff.mean(1)` is the channel mean of the absolute
difference; with SSIM the result is `0.85 * ssim_loss + 0.15 * l1_loss`,
without it the pure L1 term. -/
noncomputable def compute_reprojection_loss (no_ssim : Bool) (ssim_channels : List ℝ)
    (pred target : List ℝ) : ℝ :=
  let abs_diff := List.zipWith (fun t p => |t - p|) target pred
  let l1_loss := abs_diff.sum / (abs_diff.length : ℝ)
  if no_ssim then l1_loss
  else
    let ssim_loss := ssim_channels.sum / (ssim_channels.length : ℝ)
    0.85 * ssim_loss + 0.15 * l1_loss

/- ----------------------------------------------------------------
   Trainer construction assertions (trainer.py 54-56, 67, 110-112).
   ---------------------------------------------------------------- -/

/-- The configuration assertions of `Trainer.__init__`, by source order. -/
inductive ConfigAssert where
  | heightNotMultipleOf32
  | widthNotMultipleOf32
  | frameIdsFirstNotZero
  | predictiveMaskNeedsDisableAutomasking
deriving DecidableEq

/-- The options consumed by the `Trainer.__init__` assertions. -/
structure TrainerOptions where
  height : ℕ
  width : ℕ
  frame_ids : List ℤ
  predictive_mask : Bool
  disable_automasking : Bool

/-- The assertion sequence run by `Trainer.__init__` before any training
computation (trainer.py 54-56, 67, 110-112): height and width must be
multiples of 32, `frame_ids[0]` must be 0, and `predictive_mask` requires
`disable_automasking`. The first violated assertion aborts construction. -/
def trainer_init_asserts (opt : TrainerOptions) : Except ConfigAssert Unit :=
  if opt.height % 32 ≠ 0 then Except.error ConfigAssert.heightNotMultipleOf32
  else if opt.width % 32 ≠ 0 then Except.error ConfigAssert.widthNotMultipleOf32
  else if opt.frame_ids.headI ≠ 0 then Except.error ConfigAssert.frameIdsFirstNotZero
  else if opt.predictive_mask && !opt.disable_automasking then
    Except.error ConfigAssert.predictiveMaskNeedsDisableAutomasking
  else Except.ok ()

/- ----------------------------------------------------------------
   Per-scale camera intrinsics (kitti_dataset.py 158-167 and 272-281).
   ---------------------------------------------------------------- -/

/-- The per-scale intrinsic matrix of `get_depth_related`: starting from the
base normalized matrix, the first row is multiplied by
`width // 2 ** scale` and the second row by `height // 2 ** scale`
(integer division, as in the source); rows 3 and 4 are untouched. -/
def scale_K (K0 : Matrix (Fin 4) (Fin 4) ℝ) (width height scale : ℕ) :
    Matrix (Fin 4) (Fin 4) ℝ :=
  fun r c =>
    if r = 0 then ((width / 2 ^ scale : ℕ) : ℝ) * K0 r c
    else if r = 1 then ((height / 2 ^ scale : ℕ) : ℝ) * K0 r c
    else K0 r c

/-- The (K, inv_K) pair stored per scale by `get_depth_related`
(kitti_dataset.py 158-167, identically 272-281): K is the row-scaled
matrix and inv_K is `np.linalg.pinv(K)`. The Moore-Penrose pseudo-inverse
is an external numpy primitive, passed in as `pinv`. -/
def get_depth_related_K (pinv : Matrix (Fin 4) (Fin 4) ℝ → Matrix (Fin 4) (Fin 4) ℝ)
    (K0 : Matrix (Fin 4) (Fin 4) ℝ) (width height scale : ℕ) :
    Matrix (Fin 4) (Fin 4) ℝ × Matrix (Fin 4) (Fin 4) ℝ :=
  (scale_K K0 width height scale, pinv (scale_K K0 width height scale))

/- ----------------------------------------------------------------
   Depth validity mask (kitti_dataset.py 190-196 and 296-301).
   ---------------------------------------------------------------- -/

/-- Binary dilation on an image of extent `inGrid`, with footprint `B`:
models skimage's binary_dilation, where a pixel becomes set when some
footprint offset reaches a set in-image pixel (pixels beyond the border
count as unset for dilation). -/
def binary_dilation (B : List (ℤ × ℤ)) (inGrid : ℤ → ℤ → Bool)
    (img : ℤ → ℤ → Bool) : ℤ → ℤ → Bool :=
  fun h w => B.any (fun b => inGrid (h - b.1) (w - b.2) && img (h - b.1) (w - b.2))

/-- Binary erosion, adjoint to `binary_dilation` (skimage mirrors the
footprint between the two and pads with the maximum for erosion, so pixels
beyond the border count as set): a pixel stays set when every footprint
offset lands on a set or out-of-image pixel. -/
def binary_erosion (B : List (ℤ × ℤ)) (inGrid : ℤ → ℤ → Bool)
    (img : ℤ → ℤ → Bool) : ℤ → ℤ → Bool :=
  fun h w => B.all (fun b => !inGrid (h + b.1) (w + b.2) || img (h + b.1) (w + b.2))

/-- skimage `binary_closing`: dilation followed by erosion. -/
def binary_closing (B : List (ℤ × ℤ)) (inGrid : ℤ → ℤ → Bool)
    (img : ℤ → ℤ → Bool) : ℤ → ℤ → Bool :=
  binary_erosion B inGrid (binary_dilation B inGrid img)

/-- The `("depth_mask", i, j)` construction of `get_depth_related`
(kitti_dataset.py 190-196, identically 296-301): start from the projected
depth image (a pixel counts as set when its depth is nonzero), force every
row from `int(new_h/2)` down to 1, then apply binary closing with the
dilation structuring element of that scale. -/
def depth_mask (B : List (ℤ × ℤ)) (new_h new_w : ℕ) (depth_gt : ℤ → ℤ → ℚ) :
    ℤ → ℤ → Bool :=
  let inGrid : ℤ → ℤ → Bool := fun h w =>
    decide (0 ≤ h ∧ h < new_h ∧ 0 ≤ w ∧ w < new_w)
  let mask0 : ℤ → ℤ → Bool := fun h w =>
    if ((new_h / 2 : ℕ) : ℤ) ≤ h then true else decide (depth_gt h w ≠ 0)
  binary_closing B inGrid mask0

/- ================================================================
   Theorems
   ================================================================ -/

/-- C1: for every identity frame pair (i, i) fed to the dense CVO loss
`gen_cvo_loss_dense`, the returned f_dist and cos_sim are exactly 0,
independently of the table of inner products (so no cross-Gramian data is
consulted): the CVO loss of the pair (P, P) of the same frame is
f_dist = 0 and cos_sim = 0 exactly. -/
theorem claim_C1_identity_pair (innerps : (ℤ × ℤ) × ℕ × (Bool × Bool) → ℝ)
    (i : ℤ) (scale : ℕ) (gt_pair : Bool × Bool) :
    (gen_cvo_loss_dense innerps (i, i) scale gt_pair).2.1 = 0 ∧
    (gen_cvo_loss_dense innerps (i, i) scale gt_pair).2.2 = some 0 := by
  simp [gen_cvo_loss_dense]

/-- C2: the claim says the cosine-similarity denominator
sqrt(inp(0,0) * inp(1,1)) is guarded against zero; the code has no such
guard, and at the inner products inp(0,0) = 0, inp(1,1) = 1, inp(0,1) = 1
the division by sqrt(0) produces a non-finite value (modelled `none`). -/
theorem claim_C2_cos_denominator_unguarded :
    (loss_from_inner_prod (fun p => if p = (0, 0) then 0 else 1)).2 = none := by
  simp [loss_from_inner_prod, fdiv]

/-- C3: for two distinct point sets (i different from j) with a nonzero
denominator, the dense CVO loss derives
f_dist = inp(i,i) + inp(j,j) - 2*inp(i,j) and
cos_sim = 1 - inp(i,j)/sqrt(inp(i,i)*inp(j,j)); and `loss_from_inner_prod`
computes the same formulas from any inner-product table. -/
theorem claim_C3_loss_formulas (innerps : (ℤ × ℤ) × ℕ × (Bool × Bool) → ℝ)
    (i j : ℤ) (scale : ℕ) (gi gj : Bool) (hne : i ≠ j)
    (hden : Real.sqrt (innerps ((i, i), scale, (gi, gi)) *
      innerps ((j, j), scale, (gj, gj))) ≠ 0) :
    (gen_cvo_loss_dense innerps (i, j) scale (gi, gj)).2.1 =
      innerps ((i, i), scale, (gi, gi)) + innerps ((j, j), scale, (gj, gj)) -
        2 * innerps ((i, j), scale, (gi, gj)) ∧
    (gen_cvo_loss_dense innerps (i, j) scale (gi, gj)).2.2 =
      some (1 - innerps ((i, j), scale, (gi, gj)) /
        Real.sqrt (innerps ((i, i), scale, (gi, gi)) *
          innerps ((j, j), scale, (gj, gj)))) ∧
    (∀ ip : ℕ × ℕ → ℝ,
      (loss_from_inner_prod ip).1 = ip (0, 0) + ip (1, 1) - 2 * ip (0, 1) ∧
      (Real.sqrt (ip (0, 0) * ip (1, 1)) ≠ 0 →
        (loss_from_inner_prod ip).2 =
          some (1 - ip (0, 1) / Real.sqrt (ip (0, 0) * ip (1, 1))))) := by
  refine ⟨?_, ?_, ?_⟩
  · simp [gen_cvo_loss_dense, hne]
  · simp [gen_cvo_loss_dense, hne, fdiv, hden]
  · intro ip
    refine ⟨rfl, fun hd => ?_⟩
    simp only [loss_from_inner_prod, fdiv]
    rw [if_neg hd]
    rfl

/-- Witness for C3 at the constant inner-product table 1 and the frame
pair (0, 1). -/
theorem claim_C3_witness :
    (gen_cvo_loss_dense (fun _ => 1) (0, 1) 0 (true, false)).2.1 = 1 + 1 - 2 * 1 ∧
    (gen_cvo_loss_dense (fun _ => 1) (0, 1) 0 (true, false)).2.2 =
      some (1 - 1 / Real.sqrt (1 * 1)) := by
  have h := claim_C3_loss_formulas (fun _ => 1) 0 1 0 true false (by decide)
    (by rw [one_mul, Real.sqrt_one]; norm_num)
  exact ⟨h.1, h.2.1⟩

/-- Helper: a left fold of `min` is bounded by its initial value. -/
theorem foldl_min_le_init (l : List ℝ) : ∀ a : ℝ, List.foldl min a l ≤ a := by
  induction l with
  | nil => intro a; simp
  | cons b t ih =>
    intro a
    calc List.foldl min (min a b) t ≤ min a b := ih (min a b)
      _ ≤ a := min_le_left a b

/-- Helper: a left fold of `min` is bounded by every list member. -/
theorem foldl_min_le_mem (l : List ℝ) (x : ℝ) (hx : x ∈ l) :
    ∀ a : ℝ, List.foldl min a l ≤ x := by
  induction l with
  | nil => cases hx
  | cons b t ih =>
    intro a
    rcases List.mem_cons.mp hx with rfl | hmem
    · calc List.foldl min (min a x) t ≤ min a x := foldl_min_le_init t (min a x)
        _ ≤ x := min_le_right a x
    · exact ih hmem (min a b)

/-- C5: with automasking enabled, the per-pixel value selected by the
min-over-candidates step (minimum over all identity reprojection losses,
noise included, and all warped reprojection losses) is at most each plain
warped reprojection loss at that pixel. -/
theorem claim_C5_automask_min_le (idL rL : List ℝ) (r : ℝ) (hr : r ∈ rL) :
    compute_to_optimise idL rL ≤ r := by
  have hmem : r ∈ idL ++ rL := List.mem_append.mpr (Or.inr hr)
  unfold compute_to_optimise
  cases hcat : idL ++ rL with
  | nil => rw [hcat] at hmem; cases hmem
  | cons x xs =>
    rw [hcat] at hmem
    rcases List.mem_cons.mp hmem with rfl | h2
    · exact foldl_min_le_init xs r
    · exact foldl_min_le_mem xs r h2 x

/-- Witness for C5 with no identity candidate surviving and a single
warped loss. -/
theorem claim_C5_witness :
    (2 : ℝ) ∈ [(2 : ℝ)] ∧ compute_to_optimise [(3 : ℝ)] [(2 : ℝ)] ≤ 2 :=
  ⟨by simp, claim_C5_automask_min_le [(3 : ℝ)] [(2 : ℝ)] 2 (by simp)⟩

/-- C6: the per-pixel photometric reprojection loss is
0.85 * ssim_loss + 0.15 * l1_loss where l1_loss is the channel mean of the
absolute difference; with `no_ssim` it is the pure L1 term. -/
theorem claim_C6_reprojection_formula (ssim_channels pred target : List ℝ)
    (hlen : pred.length = target.length) :
    compute_reprojection_loss true ssim_channels pred target =
      (List.zipWith (fun t p => |t - p|) target pred).sum / (target.length : ℝ) ∧
    compute_reprojection_loss false ssim_channels pred target =
      0.85 * (ssim_channels.sum / (ssim_channels.length : ℝ)) +
        0.15 * ((List.zipWith (fun t p => |t - p|) target pred).sum /
          (target.length : ℝ)) := by
  have hz : (List.zipWith (fun t p => |t - p|) target pred).length = target.length := by
    rw [List.length_zipWith, hlen, min_self]
  constructor <;> simp [compute_reprojection_loss, hz]

/-- Witness for C6 at a one-channel pixel with pred 0, target 1. -/
theorem claim_C6_witness :
    compute_reprojection_loss true [(0 : ℝ)] [(0 : ℝ)] [(1 : ℝ)] = 1 := by
  have h := claim_C6_reprojection_formula [(0 : ℝ)] [(0 : ℝ)] [(1 : ℝ)] rfl
  rw [h.1]
  norm_num

/-- C7: Trainer construction succeeds exactly when the height and width
are multiples of 32, frame_ids starts with 0, and predictive_mask is only
set together with disable_automasking; each violating configuration is
rejected by an assertion at construction. -/
theorem claim_C7_config_asserts (opt : TrainerOptions) (hne : opt.frame_ids ≠ []) :
    trainer_init_asserts opt = Except.ok () ↔
      (opt.height % 32 = 0 ∧ opt.width % 32 = 0 ∧ opt.frame_ids.headI = 0 ∧
        (opt.predictive_mask = true → opt.disable_automasking = true)) := by
  unfold trainer_init_asserts
  split_ifs with h1 h2 h3 h4 <;> simp_all

/-- Witness for C7: a conforming configuration passes the assertions. -/
theorem claim_C7_witness :
    trainer_init_asserts ⟨64, 192, [0], false, false⟩ = Except.ok () :=
  (claim_C7_config_asserts ⟨64, 192, [0], false, false⟩ (by decide)).mpr (by decide)

/-- C9: at every scale, K is the base normalized intrinsic matrix with its
first row multiplied by width // 2^scale and its second row by
height // 2^scale, rows 3 and 4 unchanged, and inv_K is the pseudo-inverse
(the external numpy primitive `pinv`) of that scaled K. -/
theorem claim_C9_per_scale_intrinsics
    (pinv : Matrix (Fin 4) (Fin 4) ℝ → Matrix (Fin 4) (Fin 4) ℝ)
    (K0 : Matrix (Fin 4) (Fin 4) ℝ) (width height scale : ℕ) :
    (∀ c, (get_depth_related_K pinv K0 width height scale).1 0 c =
      ((width / 2 ^ scale : ℕ) : ℝ) * K0 0 c) ∧
    (∀ c, (get_depth_related_K pinv K0 width height scale).1 1 c =
      ((height / 2 ^ scale : ℕ) : ℝ) * K0 1 c) ∧
    (∀ c, (get_depth_related_K pinv K0 width height scale).1 2 c = K0 2 c) ∧
    (∀ c, (get_depth_related_K pinv K0 width height scale).1 3 c = K0 3 c) ∧
    (get_depth_related_K pinv K0 width height scale).2 =
      pinv (get_depth_related_K pinv K0 width height scale).1 := by
  refine ⟨fun c => ?_, fun c => ?_, fun c => ?_, fun c => ?_, rfl⟩ <;>
    simp [get_depth_related_K, scale_K]

/-- C10: every pixel in the bottom half of the image (rows from
int(new_h/2) down) is set in the depth validity mask, whatever the lidar
returns: those rows are forced to 1 before the binary closing, and binary
closing never clears a set pixel. -/
theorem claim_C10_bottom_half_mask (B : List (ℤ × ℤ)) (new_h new_w : ℕ)
    (depth_gt : ℤ → ℤ → ℚ) (h w : ℤ)
    (hhl : ((new_h / 2 : ℕ) : ℤ) ≤ h) (hhr : h < new_h)
    (hwl : 0 ≤ w) (hwr : w < new_w) :
    depth_mask B new_h new_w depth_gt h w = true := by
  unfold depth_mask binary_closing binary_erosion binary_dilation
  simp only [List.all_eq_true, Bool.or_eq_true, Bool.not_eq_true',
    List.any_eq_true, Bool.and_eq_true]
  intro b hb
  by_cases hg : (0 ≤ h + b.1 ∧ h + b.1 < (new_h : ℤ) ∧ 0 ≤ w + b.2 ∧ w + b.2 < (new_w : ℤ))
  · refine Or.inr ⟨b, hb, ?_, ?_⟩
    · have : h + b.1 - b.1 = h := by ring
      rw [this]
      have : w + b.2 - b.2 = w := by ring
      rw [this]
      have h0 : (0 : ℤ) ≤ h := le_trans (Int.ofNat_nonneg _) hhl
      exact decide_eq_true ⟨h0, hhr, hwl, hwr⟩
    · have e1 : h + b.1 - b.1 = h := by ring
      have e2 : w + b.2 - b.2 = w := by ring
      rw [e1, e2, if_pos hhl]
  · exact Or.inl (by simpa using hg)

/-- Witness for C10: with an all-zero depth image of height 2 and width 1,
the bottom-row pixel (1, 0) is set in the mask. -/
theorem claim_C10_witness :
    (((2 / 2 : ℕ) : ℤ) ≤ 1 ∧ (1 : ℤ) < 2 ∧ (0 : ℤ) ≤ 0 ∧ (0 : ℤ) < 1) ∧
    depth_mask [(0, 0), (1, 1)] 2 1 (fun _ _ => 0) 1 0 = true :=
  ⟨by decide,
   claim_C10_bottom_half_mask [(0, 0), (1, 1)] 2 1 (fun _ _ => 0) 1 0
     (by decide) (by decide) (by decide) (by decide)⟩

/-- Helper: when every index of `idx` is in range for `l`, looking the
indices up with optional indexing drops nothing, and equals the map of
total (default-completed) indexing. -/
theorem filterMap_getElem_eq_map {α : Type} (l : List α) (d : α) :
    ∀ idx : List ℕ, (∀ k ∈ idx, k < l.length) →
      idx.filterMap (fun k => l[k]?) = idx.map (fun k => l.getD k d) := by
  intro idx
  induction idx with
  | nil => intro _; rfl
  | cons k t ih =>
    intro hk
    have hklt : k < l.length := hk k (List.mem_cons_self k t)
    have h1 : l[k]? = some l[k] := List.getElem?_eq_getElem hklt
    have h2 : l.getD k d = l[k] := by
      rw [List.getD_eq_getElem?_getD, h1]; rfl
    rw [List.filterMap_cons_some h1, List.map_cons, h2,
      ih (fun x hx => hk x (List.mem_cons_of_mem _ hx))]

/-- Helper: below or at the cap, `samp_points` keeps everything. -/
theorem samp_points_le {α β : Type} (cap : ℕ) (perm : List ℕ)
    (xyz : List α) (rgb : List β) (hle : xyz.length ≤ cap) :
    samp_points cap perm xyz rgb = (xyz, rgb) := by
  unfold samp_points
  rw [if_neg (by omega)]

/-- Helper: above the cap, `samp_points` keeps exactly the points at the
first `cap` indices of the permutation, the same indices for xyz and
colour, and those indices are pairwise distinct. -/
theorem samp_points_gt {α β : Type} (cap : ℕ) (perm : List ℕ)
    (xyz : List α) (rgb : List β) (d : α) (e : β)
    (hperm : perm.Perm (List.range xyz.length)) (hlen : rgb.length = xyz.length)
    (hgt : cap < xyz.length) :
    (samp_points cap perm xyz rgb).1.length = cap ∧
    (samp_points cap perm xyz rgb).2.length = cap ∧
    (perm.take cap).Nodup ∧
    (samp_points cap perm xyz rgb).1 = (perm.take cap).map (fun k => xyz.getD k d) ∧
    (samp_points cap perm xyz rgb).2 = (perm.take cap).map (fun k => rgb.getD k e) := by
  have hpl : perm.length = xyz.length := by
    have := hperm.length_eq
    simpa using this
  have hmem : ∀ k ∈ perm.take cap, k < xyz.length := by
    intro k hk
    have h1 : k ∈ perm := List.take_subset cap perm hk
    have h2 : k ∈ List.range xyz.length := hperm.mem_iff.mp h1
    simpa using h2
  have hmem2 : ∀ k ∈ perm.take cap, k < rgb.length := by
    intro k hk
    rw [hlen]
    exact hmem k hk
  have htl : (perm.take cap).length = cap := by
    rw [List.length_take, hpl]
    omega
  have hnd : perm.Nodup := hperm.nodup_iff.mpr (List.nodup_range _)
  have e1 : (samp_points cap perm xyz rgb).1 =
      (perm.take cap).map (fun k => xyz.getD k d) := by
    unfold samp_points
    rw [if_pos hgt]
    exact filterMap_getElem_eq_map xyz d _ hmem
  have e2 : (samp_points cap perm xyz rgb).2 =
      (perm.take cap).map (fun k => rgb.getD k e) := by
    unfold samp_points
    rw [if_pos hgt]
    exact filterMap_getElem_eq_map rgb e _ hmem2
  refine ⟨?_, ?_, ?_, e1, e2⟩
  · rw [e1, List.length_map, htl]
  · rw [e2, List.length_map, htl]
  · exact (List.take_sublist cap perm).nodup hnd

/-- C4: sparse-mode sampling. At or below the cap (3500 in
`compute_losses`, 5000 in `calc_cvo_pose_loss`) every point is kept with
no subsampling; above the cap, exactly `cap` points are kept, namely those
at the first `cap` indices of the random permutation (pairwise distinct,
so chosen without replacement), with the same index list applied to the
xyz and the colour vectors of the set. -/
theorem claim_C4_sampling_cap :
    (∀ (α β : Type) (perm : List ℕ) (xyz : List α) (rgb : List β),
      xyz.length ≤ 3500 → compute_losses_samp perm xyz rgb = (xyz, rgb)) ∧
    (∀ (α β : Type) (perm : List ℕ) (xyz : List α) (rgb : List β),
      xyz.length ≤ 5000 → calc_cvo_pose_loss_samp perm xyz rgb = (xyz, rgb)) ∧
    (∀ (α β : Type) (perm : List ℕ) (xyz : List α) (rgb : List β) (d : α) (e : β),
      perm.Perm (List.range xyz.length) → rgb.length = xyz.length →
      3500 < xyz.length →
      (compute_losses_samp perm xyz rgb).1.length = 3500 ∧
      (compute_losses_samp perm xyz rgb).2.length = 3500 ∧
      (perm.take 3500).Nodup ∧
      (compute_losses_samp perm xyz rgb).1 =
        (perm.take 3500).map (fun k => xyz.getD k d) ∧
      (compute_losses_samp perm xyz rgb).2 =
        (perm.take 3500).map (fun k => rgb.getD k e)) ∧
    (∀ (α β : Type) (perm : List ℕ) (xyz : List α) (rgb : List β) (d : α) (e : β),
      perm.Perm (List.range xyz.length) → rgb.length = xyz.length →
      5000 < xyz.length →
      (calc_cvo_pose_loss_samp perm xyz rgb).1.length = 5000 ∧
      (calc_cvo_pose_loss_samp perm xyz rgb).2.length = 5000 ∧
      (perm.take 5000).Nodup ∧
      (calc_cvo_pose_loss_samp perm xyz rgb).1 =
        (perm.take 5000).map (fun k => xyz.getD k d) ∧
      (calc_cvo_pose_loss_samp perm xyz rgb).2 =
        (perm.take 5000).map (fun k => rgb.getD k e)) := by
  refine ⟨?_, ?_, ?_, ?_⟩
  · intro α β perm xyz rgb hle
    exact samp_points_le 3500 perm xyz rgb hle
  · intro α β perm xyz rgb hle
    exact samp_points_le 5000 perm xyz rgb hle
  · intro α β perm xyz rgb d e hperm hlen hgt
    exact samp_points_gt 3500 perm xyz rgb d e hperm hlen hgt
  · intro α β perm xyz rgb d e hperm hlen hgt
    exact samp_points_gt 5000 perm xyz rgb d e hperm hlen hgt

/-- Witness for C4: a one-point set passes through untouched at the 3500
cap, and a 5001-point set is cut to exactly 5000 points at the 5000 cap. -/
theorem claim_C4_witness :
    compute_losses_samp ([0] : List ℕ) [(5 : ℕ)] [(7 : ℕ)] = ([5], [7]) ∧
    (calc_cvo_pose_loss_samp (List.range 5001) (List.range 5001)
      (List.range 5001)).1.length = 5000 := by
  constructor
  · exact claim_C4_sampling_cap.1 ℕ ℕ [0] [5] [7] (by simp)
  · have h := claim_C4_sampling_cap.2.2.2 ℕ ℕ (List.range 5001) (List.range 5001)
      (List.range 5001) 0 0
      (by rw [List.length_range]) (by rw [List.length_range]) (by simp)
    exact h.1

/-- Helper: membership in the integer range list. -/
theorem mem_rangeZ {a lo hi : ℤ} : a ∈ rangeZ lo hi ↔ lo ≤ a ∧ a < hi := by
  unfold rangeZ
  simp only [List.mem_map, List.mem_range]
  constructor
  · rintro ⟨k, hk, rfl⟩
    omega
  · intro hbound
    exact ⟨(a - lo).toNat, by omega, by omega⟩

/-- Helper: membership in the offset-pair list of the fill loops. -/
theorem mem_off_pairs {p : ℤ × ℤ} {hh hw : ℕ} :
    p ∈ off_pairs hh hw ↔
      -(hh : ℤ) ≤ p.1 ∧ p.1 < hh ∧ -(hw : ℤ) ≤ p.2 ∧ p.2 < hw := by
  obtain ⟨i, j⟩ := p
  unfold off_pairs
  simp only [List.mem_flatMap, List.mem_map]
  constructor
  · rintro ⟨a, ha, b, hb, heq⟩
    rw [mem_rangeZ] at ha hb
    cases heq
    exact ⟨ha.1, ha.2, hb.1, hb.2⟩
  · rintro ⟨h1, h2, h3, h4⟩
    exact ⟨i, mem_rangeZ.mpr ⟨h1, h2⟩, j, mem_rangeZ.mpr ⟨h3, h4⟩, rfl⟩

/-- Helper: pointwise description of one slice assignment: slot
`keyZ half_h half_w i j` receives the source shifted by (i, j) on the
region whose shifted index stays inside the image. -/
theorem write_off_apply {α : Type} (half_h half_w H W : ℕ) (src : ℤ → ℤ → α)
    (i j : ℤ) (buf : ℕ → ℤ → ℤ → α) (idx2 : ℕ) (h w : ℤ) :
    write_off half_h half_w H W src i j buf idx2 h w =
      if idx2 = keyZ half_h half_w i j ∧ max 0 (-i) ≤ h ∧ h < (H : ℤ) + min 0 (-i) ∧
          max 0 (-j) ≤ w ∧ w < (W : ℤ) + min 0 (-j) then
        src (h + i) (w + j)
      else buf idx2 h w := by
  simp only [write_off]
  split_ifs with hc
  · have e1 : -min 0 (-i) + (h - max 0 (-i)) = h + i := by omega
    have e2 : -min 0 (-j) + (w - max 0 (-j)) = w + j := by omega
    rw [e1, e2]
  · rfl

/-- Helper: a fold of slice assignments leaves untouched every slot whose
key is hit by none of the folded offsets. -/
theorem foldl_write_off_ne {α : Type} (H W : ℕ) (src : ℤ → ℤ → α) :
    ∀ (ps : List (ℤ × ℤ)) (buf : ℕ → ℤ → ℤ → α) (k : ℕ) (h w : ℤ),
      (∀ p ∈ ps, keyZ 4 4 p.1 p.2 ≠ k) →
      (ps.foldl (fun b p => write_off 4 4 H W src p.1 p.2 b) buf) k h w = buf k h w := by
  intro ps
  induction ps with
  | nil => intro buf k h w _; rfl
  | cons q t ih =>
    intro buf k h w hk
    rw [List.foldl_cons, ih _ k h w (fun p hp => hk p (List.mem_cons_of_mem _ hp)),
      write_off_apply]
    rw [if_neg]
    intro hcon
    exact hk q (List.mem_cons_self q t) hcon.1.symm

/-- Helper: after folding slice assignments with pairwise distinct keys,
the slot of an offset (i, j) in the list holds the shifted source on its
region and the previous buffer content elsewhere. -/
theorem foldl_write_off_mem {α : Type} (H W : ℕ) (src : ℤ → ℤ → α) :
    ∀ (ps : List (ℤ × ℤ)) (buf : ℕ → ℤ → ℤ → α) (i j h w : ℤ),
      (i, j) ∈ ps → (ps.map (fun p => keyZ 4 4 p.1 p.2)).Nodup →
      (ps.foldl (fun b p => write_off 4 4 H W src p.1 p.2 b) buf) (keyZ 4 4 i j) h w =
        if max 0 (-i) ≤ h ∧ h < (H : ℤ) + min 0 (-i) ∧
            max 0 (-j) ≤ w ∧ w < (W : ℤ) + min 0 (-j) then
          src (h + i) (w + j)
        else buf (keyZ 4 4 i j) h w := by
  intro ps
  induction ps with
  | nil => intro buf i j h w hmem _; cases hmem
  | cons q t ih =>
    intro buf i j h w hmem hnd
    rw [List.map_cons, List.nodup_cons] at hnd
    rw [List.foldl_cons]
    rcases List.mem_cons.mp hmem with heq | hmem2
    · cases heq
      have hkey : ∀ p ∈ t, keyZ 4 4 p.1 p.2 ≠ keyZ 4 4 i j := by
        intro p hp hc
        exact hnd.1 (hc ▸ List.mem_map_of_mem _ hp)
      rw [foldl_write_off_ne H W src t _ _ _ _ hkey, write_off_apply]
      simp only [true_and, if_pos, eq_self_iff_true]
    · have hq : keyZ 4 4 i j ≠ keyZ 4 4 q.1 q.2 := by
        intro hc
        exact hnd.1 (hc ▸ List.mem_map_of_mem _ hmem2)
      have hwr : write_off 4 4 H W src q.1 q.2 buf (keyZ 4 4 i j) h w =
          buf (keyZ 4 4 i j) h w := by
        rw [write_off_apply, if_neg]
        intro hcon
        exact hq hcon.1
      rw [ih _ i j h w hmem2 hnd.2, hwr]

/-- Helper: the keys written by the fill loops are pairwise distinct. -/
theorem off_pairs_keys_nodup :
    ((off_pairs 4 4).map (fun p => keyZ 4 4 p.1 p.2)).Nodup := by decide

/-- Helper: an unwritten slot of the offset buffer keeps its zero. -/
theorem fill_off_of_ne {α : Type} (H W : ℕ) (src : ℤ → ℤ → α) (zero : α)
    (k : ℕ) (h w : ℤ) (hk : ∀ p ∈ off_pairs 4 4, keyZ 4 4 p.1 p.2 ≠ k) :
    fill_off 4 4 H W src zero k h w = zero := by
  unfold fill_off
  rw [foldl_write_off_ne H W src _ _ _ _ _ hk]

/-- Helper: a written slot of the offset buffer holds the source shifted
by its offset on the in-bounds region, and the zero padding elsewhere. -/
theorem fill_off_of_mem {α : Type} (H W : ℕ) (src : ℤ → ℤ → α) (zero : α)
    (i j h w : ℤ) (hmem : (i, j) ∈ off_pairs 4 4) :
    fill_off 4 4 H W src zero (keyZ 4 4 i j) h w =
      if max 0 (-i) ≤ h ∧ h < (H : ℤ) + min 0 (-i) ∧
          max 0 (-j) ≤ w ∧ w < (W : ℤ) + min 0 (-j) then
        src (h + i) (w + j)
      else zero := by
  unfold fill_off
  rw [foldl_write_off_mem H W src _ _ i j h w hmem off_pairs_keys_nodup]

/-- Helper: written keys stay below the number of allocated slots. -/
theorem keyZ_lt_num_off {i j : ℤ} (hi1 : -4 ≤ i) (hi2 : i < 4)
    (hj1 : -4 ≤ j) (hj2 : j < 4) : keyZ 4 4 i j < num_off := by
  unfold keyZ num_off
  omega

/-- Helper: the key map is injective on the written offsets. -/
theorem keyZ_inj {i j i2 j2 : ℤ} (hi1 : -4 ≤ i) (hi2 : i < 4)
    (hj1 : -4 ≤ j) (hj2 : j < 4) (hi3 : -4 ≤ i2) (hi4 : i2 < 4)
    (hj3 : -4 ≤ j2) (hj4 : j2 < 4)
    (heq : keyZ 4 4 i j = keyZ 4 4 i2 j2) : i = i2 ∧ j = j2 := by
  unfold keyZ at heq
  omega

/-- Helper: at a fixed in-bounds pixel, the sum over the 81 offset slots of
the masked kernel values equals the sum of the joint kernel values over the
8 x 8 offset window [-4, 3] x [-4, 3], restricted to in-bounds, valid
pixels of the second point set. -/
theorem inner_sum_eq (geo : ℝ) (H W : ℕ)
    (x0 x1 : ℤ → ℤ → ℝ × ℝ × ℝ) (m1 : ℤ → ℤ → Bool)
    (hsv : Option ((ℤ → ℤ → ℝ × ℝ × ℝ) × (ℤ → ℤ → ℝ × ℝ × ℝ)))
    (h w : ℤ) (h0 : 0 ≤ h) (hH : h < (H : ℤ)) (w0 : 0 ≤ w) (hW : w < (W : ℤ)) :
    Finset.sum (Finset.range num_off) (fun idx =>
      if fill_off 4 4 H W m1 false idx h w then
        dense_diff geo H W x0 x1 hsv idx h w
      else 0) =
    Finset.sum ((Finset.Icc (-4 : ℤ) 3) ×ˢ (Finset.Icc (-4 : ℤ) 3)) (fun p =>
      if 0 ≤ h + p.1 ∧ h + p.1 < H ∧ 0 ≤ w + p.2 ∧ w + p.2 < W ∧
          m1 (h + p.1) (w + p.2) = true then
        pair_kernel geo x0 x1 hsv h w (h + p.1) (w + p.2)
      else 0) := by
  classical
  have hsub : ((off_pairs 4 4).map (fun p => keyZ 4 4 p.1 p.2)).toFinset ⊆
      Finset.range num_off := by
    intro k hk
    rw [List.mem_toFinset, List.mem_map] at hk
    obtain ⟨p, hp, rfl⟩ := hk
    rw [mem_off_pairs] at hp
    exact Finset.mem_range.mpr (keyZ_lt_num_off hp.1 hp.2.1 hp.2.2.1 hp.2.2.2)
  have hzero : ∀ idx ∈ Finset.range num_off,
      idx ∉ ((off_pairs 4 4).map (fun p => keyZ 4 4 p.1 p.2)).toFinset →
      (if fill_off 4 4 H W m1 false idx h w then
        dense_diff geo H W x0 x1 hsv idx h w else 0) = 0 := by
    intro idx _ hidx
    rw [List.mem_toFinset, List.mem_map] at hidx
    push_neg at hidx
    have hfalse : fill_off 4 4 H W m1 false idx h w = false :=
      fill_off_of_ne H W m1 false idx h w (fun p hp => hidx p hp)
    rw [hfalse]
    simp
  rw [← Finset.sum_subset hsub hzero]
  have himg : ((off_pairs 4 4).map (fun p => keyZ 4 4 p.1 p.2)).toFinset =
      Finset.image (fun p : ℤ × ℤ => keyZ 4 4 p.1 p.2)
        ((Finset.Icc (-4 : ℤ) 3) ×ˢ (Finset.Icc (-4 : ℤ) 3)) := by
    ext k
    rw [List.mem_toFinset, List.mem_map, Finset.mem_image]
    constructor
    · rintro ⟨p, hp, rfl⟩
      rw [mem_off_pairs] at hp
      refine ⟨p, ?_, rfl⟩
      rw [Finset.mem_product, Finset.mem_Icc, Finset.mem_Icc]
      omega
    · rintro ⟨p, hp, rfl⟩
      rw [Finset.mem_product, Finset.mem_Icc, Finset.mem_Icc] at hp
      refine ⟨p, ?_, rfl⟩
      rw [mem_off_pairs]
      omega
  have hinj : ∀ p ∈ (Finset.Icc (-4 : ℤ) 3) ×ˢ (Finset.Icc (-4 : ℤ) 3),
      ∀ q ∈ (Finset.Icc (-4 : ℤ) 3) ×ˢ (Finset.Icc (-4 : ℤ) 3),
      keyZ 4 4 p.1 p.2 = keyZ 4 4 q.1 q.2 → p = q := by
    intro p hp q hq heq
    rw [Finset.mem_product, Finset.mem_Icc, Finset.mem_Icc] at hp hq
    have hij := keyZ_inj (by omega) (by omega) (by omega) (by omega)
      (by omega) (by omega) (by omega) (by omega) heq
    exact Prod.ext_iff.mpr ⟨hij.1, hij.2⟩
  rw [himg, Finset.sum_image hinj]
  refine Finset.sum_congr rfl (fun p hp => ?_)
  rw [Finset.mem_product, Finset.mem_Icc, Finset.mem_Icc] at hp
  obtain ⟨⟨hp1, hp2⟩, hp3, hp4⟩ := hp
  have hpmem : ((p.1, p.2) : ℤ × ℤ) ∈ off_pairs 4 4 :=
    mem_off_pairs.mpr ⟨hp1, by omega, hp3, by omega⟩
  have hmask := fill_off_of_mem H W m1 false p.1 p.2 h w hpmem
  have hreg : (max 0 (-p.1) ≤ h ∧ h < (H : ℤ) + min 0 (-p.1) ∧
      max 0 (-p.2) ≤ w ∧ w < (W : ℤ) + min 0 (-p.2)) ↔
      (0 ≤ h + p.1 ∧ h + p.1 < (H : ℤ) ∧ 0 ≤ w + p.2 ∧ w + p.2 < (W : ℤ)) := by
    omega
  by_cases hb : 0 ≤ h + p.1 ∧ h + p.1 < (H : ℤ) ∧ 0 ≤ w + p.2 ∧ w + p.2 < (W : ℤ)
  · have hregT := hreg.mpr hb
    rw [hmask, if_pos hregT]
    have hdd : dense_diff geo H W x0 x1 hsv (keyZ 4 4 p.1 p.2) h w =
        pair_kernel geo x0 x1 hsv h w (h + p.1) (w + p.2) := by
      cases hsv with
      | none =>
          simp only [dense_diff, pair_kernel]
          rw [fill_off_of_mem H W x1 (0, 0, 0) p.1 p.2 h w hpmem, if_pos hregT,
            mul_one]
      | some hsvp =>
          simp only [dense_diff, pair_kernel]
          rw [fill_off_of_mem H W x1 (0, 0, 0) p.1 p.2 h w hpmem, if_pos hregT,
            fill_off_of_mem H W hsvp.2 (0, 0, 0) p.1 p.2 h w hpmem, if_pos hregT]
    by_cases hm1 : m1 (h + p.1) (w + p.2) = true
    · rw [if_pos hm1, if_pos ⟨hb.1, hb.2.1, hb.2.2.1, hb.2.2.2, hm1⟩, hdd]
    · rw [if_neg hm1, if_neg (fun hc => hm1 hc.2.2.2.2)]
  · have hregF : ¬(max 0 (-p.1) ≤ h ∧ h < (H : ℤ) + min 0 (-p.1) ∧
        max 0 (-p.2) ≤ w ∧ w < (W : ℤ) + min 0 (-p.2)) := fun hr => hb (hreg.mp hr)
    rw [hmask, if_neg hregF]
    rw [if_neg (fun hc : (0 ≤ h + p.1 ∧ h + p.1 < (H : ℤ) ∧ 0 ≤ w + p.2 ∧
        w + p.2 < (W : ℤ) ∧ m1 (h + p.1) (w + p.2) = true) =>
      hb ⟨hc.1, hc.2.1, hc.2.2.1, hc.2.2.2.1⟩)]
    simp

/-- Helper: the dense inner product equals the windowed sum over the
8 x 8 offset window [-4, 3] x [-4, 3] actually visited by the fill loops. -/
theorem calc_inp_from_dense_eq_window (geo : ℝ) (H W : ℕ)
    (x0 x1 : ℤ → ℤ → ℝ × ℝ × ℝ) (m0 m1 : ℤ → ℤ → Bool)
    (hsv : Option ((ℤ → ℤ → ℝ × ℝ × ℝ) × (ℤ → ℤ → ℝ × ℝ × ℝ))) :
    calc_inp_from_dense geo H W x0 x1 m0 m1 hsv =
      windowed_inner_prod ((Finset.Icc (-4 : ℤ) 3) ×ˢ (Finset.Icc (-4 : ℤ) 3))
        geo H W x0 x1 m0 m1 hsv := by
  unfold calc_inp_from_dense windowed_inner_prod
  refine Finset.sum_congr rfl (fun h hh => Finset.sum_congr rfl (fun w hw => ?_))
  rw [Finset.mem_range] at hh hw
  by_cases hm : m0 (h : ℤ) (w : ℤ) = true
  · rw [if_pos hm, if_pos hm]
    exact inner_sum_eq geo H W x0 x1 m1 hsv (h : ℤ) (w : ℤ)
      (Int.ofNat_nonneg h) (by exact_mod_cast hh) (Int.ofNat_nonneg w)
      (by exact_mod_cast hw)
  · rw [if_neg hm, if_neg hm]

/-- C8 (amended): in dense/windowed CVO mode, for every pixel of the first
point set whose own mask is set, the inner-product contribution sums the
joint kernel values against exactly the pixels of the other point set at
the offsets of the 8 x 8 window [-4, 3] x [-4, 3] (the loops run
`range(-half_h, half_h)` with half_h = half_w = 4, so the upper offsets
+4 of the allocated 9 x 9 = 81-slot buffer are never written and stay
masked out); window offsets that leave the image bounds are zero-padded
and masked out via the validity mask, and pixels where the first set's
own mask is false contribute nothing. -/
theorem claim_C8_dense_window (geo : ℝ) (H W : ℕ)
    (x0 x1 : ℤ → ℤ → ℝ × ℝ × ℝ) (m0 m1 : ℤ → ℤ → Bool)
    (hsv : Option ((ℤ → ℤ → ℝ × ℝ × ℝ) × (ℤ → ℤ → ℝ × ℝ × ℝ))) :
    calc_inp_from_dense geo H W x0 x1 m0 m1 hsv =
      windowed_inner_prod ((Finset.Icc (-4 : ℤ) 3) ×ˢ (Finset.Icc (-4 : ℤ) 3))
        geo H W x0 x1 m0 m1 hsv :=
  calc_inp_from_dense_eq_window geo H W x0 x1 m0 m1 hsv

/-- C8 counterexample: on a 5 x 1 image whose first point set is valid only
at pixel (0, 0) and whose second point set is valid only at pixel (4, 0),
the code computes inner product 0 (offset +4 is outside the visited
window), while the claimed 9 x 9 window [-4, 4] x [-4, 4] would include
the pair and give 1; so the dense inner product is not the 9 x 9 windowed
sum. -/
theorem claim_C8_counterexample :
    calc_inp_from_dense 1 5 1 (fun _ _ => (0, 0, 0)) (fun _ _ => (0, 0, 0))
        (fun h _ => decide (h = 0)) (fun h _ => decide (h = 4)) none ≠
      windowed_inner_prod ((Finset.Icc (-4 : ℤ) 4) ×ˢ (Finset.Icc (-4 : ℤ) 4)) 1 5 1
        (fun _ _ => (0, 0, 0)) (fun _ _ => (0, 0, 0))
        (fun h _ => decide (h = 0)) (fun h _ => decide (h = 4)) none := by
  have hcode : calc_inp_from_dense 1 5 1 (fun _ _ => (0, 0, 0)) (fun _ _ => (0, 0, 0))
      (fun h _ => decide (h = 0)) (fun h _ => decide (h = 4)) none = 0 := by
    rw [calc_inp_from_dense_eq_window]
    unfold windowed_inner_prod
    refine Finset.sum_eq_zero (fun hh _ => Finset.sum_eq_zero (fun ww _ => ?_))
    simp only [decide_eq_true_eq]
    by_cases hz : ((hh : ℤ)) = 0
    · rw [if_pos hz]
      refine Finset.sum_eq_zero (fun p hp => ?_)
      rw [Finset.mem_product, Finset.mem_Icc, Finset.mem_Icc] at hp
      rw [if_neg]
      rintro ⟨-, -, -, -, hm1⟩
      omega
    · rw [if_neg hz]
  have hspec : windowed_inner_prod ((Finset.Icc (-4 : ℤ) 4) ×ˢ (Finset.Icc (-4 : ℤ) 4))
      1 5 1 (fun _ _ => (0, 0, 0)) (fun _ _ => (0, 0, 0))
      (fun h _ => decide (h = 0)) (fun h _ => decide (h = 4)) none = 1 := by
    unfold windowed_inner_prod
    simp only [decide_eq_true_eq]
    rw [Finset.sum_eq_single_of_mem 0 (Finset.mem_range.mpr (by norm_num))]
    · rw [Finset.sum_range_one]
      rw [if_pos (by norm_num : (((0 : ℕ) : ℤ)) = 0)]
      rw [Finset.sum_eq_single_of_mem ((4 : ℤ), (0 : ℤ))]
      · split_ifs with hc
        · simp [pair_kernel, sqnorm3]
        · exfalso
          apply hc
          norm_num
      · rw [Finset.mem_product, Finset.mem_Icc, Finset.mem_Icc]
        norm_num
      · rintro ⟨bi, bj⟩ hb hbne
        rw [Finset.mem_product, Finset.mem_Icc, Finset.mem_Icc] at hb
        rw [if_neg]
        rintro ⟨h1, h2, h3, h4, h5⟩
        apply hbne
        rw [Prod.mk.injEq]
        constructor <;> omega
    · intro b hb hbne
      refine Finset.sum_eq_zero (fun ww _ => ?_)
      rw [if_neg]
      intro hb0
      apply hbne
      exact_mod_cast hb0
  rw [hcode, hspec]
  norm_num
